import Mathlib

/-
Verification of the core ledger component of `blockchain.py`
(single-file blockchain node: hash-linked chain, pending transaction
pool, proof-of-work puzzle, chain validation and longest-chain
peer-conflict resolution).

The Python source is shallowly embedded below:

* Python `int` is modelled as `Int` (arbitrary precision in both).
* Python `str` is modelled as `String`; all strings the hashing paths
  produce are ASCII, so UTF-8 encoding is modelled as the list of code
  points.
* `hashlib.sha256` is implemented bit-for-bit (FIPS 180-4) over byte
  lists, with hex digests rendered as lowercase strings.
* `json.dumps(block, sort_keys=True)` is modelled by `Json.dumps`
  below: objects are serialized with keys sorted lexicographically,
  with the default `", "` and `": "` separators that CPython uses.
* Code that can raise (`chain[0]` / `chain[-1]` on an empty list,
  `requests.get` on an unreachable peer) is modelled with `Option`:
  `none` is an exception propagating out of the function.
* `time.time()` returns ambient wall-clock time; block construction
  takes the current time as an explicit `now` argument instead.
-/

namespace BuildingBlockchain

/-! ## SHA-256 (FIPS 180-4), over lists of bytes -/

namespace SHA256

/-- 2^32, the word modulus. -/
def M32 : Nat := 4294967296

/-- Right rotation of a 32-bit word. -/
def rotr (n x : Nat) : Nat := ((x >>> n) ||| (x <<< (32 - n))) % M32

def bsig0 (x : Nat) : Nat := rotr 2 x ^^^ rotr 13 x ^^^ rotr 22 x

def bsig1 (x : Nat) : Nat := rotr 6 x ^^^ rotr 11 x ^^^ rotr 25 x

def ssig0 (x : Nat) : Nat := rotr 7 x ^^^ rotr 18 x ^^^ (x >>> 3)

def ssig1 (x : Nat) : Nat := rotr 17 x ^^^ rotr 19 x ^^^ (x >>> 10)

def ch (x y z : Nat) : Nat := (x &&& y) ^^^ ((x ^^^ 4294967295) &&& z)

def maj (x y z : Nat) : Nat := (x &&& y) ^^^ (x &&& z) ^^^ (y &&& z)

/-- The eight 32-bit words of the running hash state. -/
structure Digest where
  a : Nat
  b : Nat
  c : Nat
  d : Nat
  e : Nat
  f : Nat
  g : Nat
  h : Nat

def initDigest : Digest :=
  ⟨1779033703, 3144134277, 1013904242, 2773480762, 1359893119, 2600822924, 528734635, 1541459225⟩

/-- The 64 round constants (FIPS 180-4 section 4.2.2), in decimal. -/
def K : List Nat :=
  [ 1116352408, 1899447441, 3049323471, 3921009573, 961987163, 1508970993,
    2453635748, 2870763221, 3624381080, 310598401, 607225278, 1426881987,
    1925078388, 2162078206, 2614888103, 3248222580, 3835390401, 4022224774,
    264347078, 604807628, 770255983, 1249150122, 1555081692, 1996064986,
    2554220882, 2821834349, 2952996808, 3210313671, 3336571891, 3584528711,
    113926993, 338241895, 666307205, 773529912, 1294757372, 1396182291,
    1695183700, 1986661051, 2177026350, 2456956037, 2730485921, 2820302411,
    3259730800, 3345764771, 3516065817, 3600352804, 4094571909, 275423344,
    430227734, 506948616, 659060556, 883997877, 958139571, 1322822218,
    1537002063, 1747873779, 1955562222, 2024104815, 2227730452, 2361852424,
    2428436474, 2756734187, 3204031479, 3329325298 ]

/-- Big-endian packing of bytes into 32-bit words. -/
def bytesToWords : List Nat → List Nat
  | b0 :: b1 :: b2 :: b3 :: rest => (((b0 * 256 + b1) * 256 + b2) * 256 + b3) :: bytesToWords rest
  | _ => []

/-- Next word of the message schedule from the words produced so far. -/
def nextWord (w : List Nat) : Nat :=
  let len := w.length
  (ssig1 (w.getD (len - 2) 0) + w.getD (len - 7) 0 + ssig0 (w.getD (len - 15) 0) +
    w.getD (len - 16) 0) % M32

/-- Extend the 16 chunk words by the given number of schedule words. -/
def extendWords : Nat → List Nat → List Nat
  | 0, w => w
  | n + 1, w => extendWords n (w ++ [nextWord w])

/-- The 64 compression rounds, consuming constants and schedule in step. -/
def rounds : List Nat → List Nat → Digest → Digest
  | k :: ks, x :: xs, ⟨a, b, c, d, e, f, g, h⟩ =>
    let t1 := (h + bsig1 e + ch e f g + k + x) % M32
    let t2 := (bsig0 a + maj a b c) % M32
    rounds ks xs ⟨(t1 + t2) % M32, a, b, c, (d + t1) % M32, e, f, g⟩
  | _, _, st => st

def addDigest (x y : Digest) : Digest :=
  ⟨(x.a + y.a) % M32, (x.b + y.b) % M32, (x.c + y.c) % M32, (x.d + y.d) % M32,
   (x.e + y.e) % M32, (x.f + y.f) % M32, (x.g + y.g) % M32, (x.h + y.h) % M32⟩

/-- Compress one 64-byte chunk into the state. -/
def compress (st : Digest) (chunk : List Nat) : Digest :=
  addDigest st (rounds K (extendWords 48 (bytesToWords chunk)) st)

/-- Consume the (already padded) message 64 bytes at a time. -/
def absorb : Digest → List Nat → List Nat → Digest
  | st, _, [] => st
  | st, acc, b :: rest =>
    let acc' := acc ++ [b]
    if acc'.length = 64 then absorb (compress st acc') [] rest else absorb st acc' rest

/-- The message length as eight big-endian bytes. -/
def lenBytes (n : Nat) : List Nat :=
  [(n >>> 56) % 256, (n >>> 48) % 256, (n >>> 40) % 256, (n >>> 32) % 256,
   (n >>> 24) % 256, (n >>> 16) % 256, (n >>> 8) % 256, n % 256]

/-- Merkle–Damgård padding: 0x80, zeros to 56 mod 64, then the bit length. -/
def pad (msg : List Nat) : List Nat :=
  msg ++ 128 :: (List.replicate ((120 - (msg.length + 1) % 64) % 64) 0 ++ lenBytes (msg.length * 8))

/-- Unpack a 32-bit word into four big-endian bytes. -/
def wordBytes (w : Nat) : List Nat :=
  [(w >>> 24) % 256, (w >>> 16) % 256, (w >>> 8) % 256, w % 256]

/-- SHA-256 of a byte list, as the 32 digest bytes. -/
def sha256 (msg : List Nat) : List Nat :=
  let st := absorb initDigest [] (pad msg)
  wordBytes st.a ++ wordBytes st.b ++ wordBytes st.c ++ wordBytes st.d ++
    wordBytes st.e ++ wordBytes st.f ++ wordBytes st.g ++ wordBytes st.h

/-- Lowercase hex digit for a nibble (the argument is reduced mod 16). -/
def hexChar (n : Nat) : Char := "0123456789abcdef".data.getD (n % 16) '0'

/-- Two lowercase hex digits of one byte. -/
def byteHex (b : Nat) : List Char := [hexChar (b / 16), hexChar b]

/-- Render bytes as a lowercase hex string, as `hexdigest()` does. -/
def hexString (bytes : List Nat) : String := ⟨bytes.flatMap byteHex⟩

/-- The `hashlib.sha256(bytes).hexdigest()` composite. -/
def sha256hex (msg : List Nat) : String := hexString (sha256 msg)

/-- UTF-8 encoding of a string; all strings hashed by this program are
ASCII (the serializer escapes everything else), so the encoding is the
list of code points. -/
def strBytes (s : String) : List Nat := s.data.map Char.toNat

end SHA256

/-! ## Python/JSON values

A Python dict is its list of entries in insertion order; `json.dumps`
with `sort_keys=True` is what erases that order at hashing time. -/

inductive Json where
  | num (n : Int)
  | str (s : String)
  | arr (elems : List Json)
  | obj (members : List (String × Json))

namespace Json

mutual

/-- Structural (Python `==`) equality on JSON values. -/
def decEq : (x y : Json) → Decidable (x = y)
  | num a, num b =>
    match Int.decEq a b with
    | isTrue h => isTrue (by rw [h])
    | isFalse h => isFalse (fun hh => h (Json.num.inj hh))
  | num _, str _ => isFalse (fun h => Json.noConfusion h)
  | num _, arr _ => isFalse (fun h => Json.noConfusion h)
  | num _, obj _ => isFalse (fun h => Json.noConfusion h)
  | str _, num _ => isFalse (fun h => Json.noConfusion h)
  | str a, str b =>
    match instDecidableEqString a b with
    | isTrue h => isTrue (by rw [h])
    | isFalse h => isFalse (fun hh => h (Json.str.inj hh))
  | str _, arr _ => isFalse (fun h => Json.noConfusion h)
  | str _, obj _ => isFalse (fun h => Json.noConfusion h)
  | arr _, num _ => isFalse (fun h => Json.noConfusion h)
  | arr _, str _ => isFalse (fun h => Json.noConfusion h)
  | arr a, arr b =>
    match decEqList a b with
    | isTrue h => isTrue (by rw [h])
    | isFalse h => isFalse (fun hh => h (Json.arr.inj hh))
  | arr _, obj _ => isFalse (fun h => Json.noConfusion h)
  | obj _, num _ => isFalse (fun h => Json.noConfusion h)
  | obj _, str _ => isFalse (fun h => Json.noConfusion h)
  | obj _, arr _ => isFalse (fun h => Json.noConfusion h)
  | obj a, obj b =>
    match decEqMembers a b with
    | isTrue h => isTrue (by rw [h])
    | isFalse h => isFalse (fun hh => h (Json.obj.inj hh))

/-- Decidable equality on JSON arrays. -/
def decEqList : (x y : List Json) → Decidable (x = y)
  | [], [] => isTrue rfl
  | [], _ :: _ => isFalse (fun h => List.noConfusion h)
  | _ :: _, [] => isFalse (fun h => List.noConfusion h)
  | a :: as, b :: bs =>
    match decEq a b, decEqList as bs with
    | isTrue h1, isTrue h2 => isTrue (by rw [h1, h2])
    | isFalse h1, _ => isFalse (fun h => h1 (List.cons.inj h).1)
    | _, isFalse h2 => isFalse (fun h => h2 (List.cons.inj h).2)

/-- Decidable equality on JSON object member lists. -/
def decEqMembers : (x y : List (String × Json)) → Decidable (x = y)
  | [], [] => isTrue rfl
  | [], _ :: _ => isFalse (fun h => List.noConfusion h)
  | _ :: _, [] => isFalse (fun h => List.noConfusion h)
  | (k1, v1) :: as, (k2, v2) :: bs =>
    match instDecidableEqString k1 k2, decEq v1 v2, decEqMembers as bs with
    | isTrue hk, isTrue hv, isTrue hs => isTrue (by rw [hk, hv, hs])
    | isFalse hk, _, _ =>
      isFalse (fun h => hk (congrArg Prod.fst (List.cons.inj h).1))
    | _, isFalse hv, _ =>
      isFalse (fun h => hv (congrArg Prod.snd (List.cons.inj h).1))
    | _, _, isFalse hs => isFalse (fun h => hs (List.cons.inj h).2)

end

instance : DecidableEq Json := decEq

/-- Python truthiness of a JSON-shaped value (`0`, `""`, `[]` and
empty dicts are falsy), as used by `previous_hash or ...`. -/
def pyTruthy : Json → Bool
  | num n => decide (n ≠ 0)
  | str s => decide (s ≠ "")
  | arr elems => !elems.isEmpty
  | obj members => !members.isEmpty

/-- JSON string escaping as CPython `json.dumps` does with its default
`ensure_ascii=True`: the two quoting characters and the five short
escapes, and `\uXXXX` for every other control or non-ASCII code point
(code points beyond the basic plane would use surrogate pairs in
CPython; no string in this development leaves ASCII). -/
def escapeChar (c : Char) : List Char :=
  if c = '"' then ['\\', '"']
  else if c = '\\' then ['\\', '\\']
  else if c = '\n' then ['\\', 'n']
  else if c = '\t' then ['\\', 't']
  else if c = '\r' then ['\\', 'r']
  else if c.toNat = 8 then ['\\', 'b']
  else if c.toNat = 12 then ['\\', 'f']
  else if c.toNat < 32 || 126 < c.toNat then
    ['\\', 'u', SHA256.hexChar (c.toNat >>> 12), SHA256.hexChar (c.toNat >>> 8),
      SHA256.hexChar (c.toNat >>> 4), SHA256.hexChar c.toNat]
  else [c]

/-- A JSON string literal with quotes and escapes. -/
def quoteStr (s : String) : String := ⟨'"' :: (s.data.flatMap escapeChar ++ ['"'])⟩

/-- Sort serialized object members by their (raw) key, as `sort_keys=True`
sorts the keys of every object with Python string comparison. -/
def sortPairs (l : List (String × String)) : List (String × String) :=
  l.mergeSort (fun x y => decide (x.1 ≤ y.1))

/-- One `"key": value` item of a serialized object. -/
def memberString (kv : String × String) : String := quoteStr kv.1 ++ ": " ++ kv.2

mutual

/-- `json.dumps(v, sort_keys=True)` with CPython's default `", "` and
`": "` separators. Members are serialized first and then sorted by key;
since serialization leaves keys untouched and the sort compares only
keys, this equals sorting the members first, which is what CPython
does. -/
def dumps : Json → String
  | num n => toString n
  | str s => quoteStr s
  | arr elems => "[" ++ String.intercalate ", " (dumpsList elems) ++ "]"
  | obj members =>
    "\x7b" ++ String.intercalate ", " ((sortPairs (dumpsMembers members)).map memberString) ++ "\x7d"

/-- Serialize each array element. -/
def dumpsList : List Json → List String
  | [] => []
  | j :: rest => dumps j :: dumpsList rest

/-- Serialize the value of each object member, keeping its key. -/
def dumpsMembers : List (String × Json) → List (String × String)
  | [] => []
  | (k, v) :: rest => (k, dumps v) :: dumpsMembers rest

end

end Json

/-- Python string slicing `s[:n]` (by code point, as Python slices). -/
def pyslice (s : String) (n : Nat) : String := ⟨s.data.take n⟩

/-! ## The `Blockchain` class -/

namespace Blockchain

/-- A pending or embedded transfer record, as built by `new_transaction`. -/
structure Transaction where
  sender : String
  recipient : String
  amount : Int
deriving DecidableEq

/-- The dict a transaction is stored as, in its insertion order. -/
def Transaction.fields (t : Transaction) : List (String × Json) :=
  [("sender", .str t.sender), ("recipient", .str t.recipient), ("amount", .num t.amount)]

/-- A block dict as built by `new_block`. `previous_hash` is kept as a
JSON value because the genesis block stores the Python int `1` there
while every later block stores a digest string. `timestamp` is the
`time.time()` value passed in at creation. -/
structure Block where
  index : Int
  timestamp : Int
  transactions : List Transaction
  proof : Int
  previous_hash : Json
deriving DecidableEq

/-- The block dict in the insertion order `new_block` uses. -/
def Block.fields (b : Block) : List (String × Json) :=
  [("index", .num b.index), ("timestamp", .num b.timestamp),
   ("transactions", .arr (b.transactions.map (fun t => .obj t.fields))),
   ("proof", .num b.proof), ("previous_hash", b.previous_hash)]

/-- The mutable attributes of a `Blockchain` instance. -/
structure State where
  chain : List Block
  current_transactions : List Transaction
  nodes : List String
deriving DecidableEq

/-- `Blockchain.hash`: `sha256(json.dumps(block, sort_keys=True).encode()).hexdigest()`,
on a block dict given in its in-memory member order. -/
def hash (block : List (String × Json)) : String :=
  SHA256.sha256hex (SHA256.strBytes (Json.dumps (.obj block)))

/-- `Blockchain.hash` applied to one of this program's block dicts. -/
def hashBlock (b : Block) : String := hash b.fields

/-- `Blockchain.valid_proof`: the guess is the f-string
`f'{last_proof}{proof}'`, i.e. the two decimal representations
concatenated, and the check is `sha256(guess).hexdigest()[:4] == '0000'`. -/
def valid_proof (last_proof proof : Int) : Bool :=
  let guess := toString last_proof ++ toString proof
  let guess_hash := SHA256.sha256hex (SHA256.strBytes guess)
  pyslice guess_hash 4 == "0000"

/-- `Blockchain.proof_of_work`: `proof = 0; while not valid_proof(last_proof, proof): proof += 1`.
The loop counts up from 0 and stops at the first solution, so it
computes the least natural number satisfying `valid_proof`; it
terminates exactly when a solution exists, which is taken as a
hypothesis. -/
def proof_of_work (last_proof : Int)
    (ex : ∃ p : Nat, valid_proof last_proof (Int.ofNat p) = true) : Nat :=
  Nat.find ex

/-- `Blockchain.new_block(self, proof, previous_hash=None)`.

The block's `previous_hash` entry is `previous_hash or self.hash(self.chain[-1])`:
the argument if it is truthy, otherwise the digest of the last block —
and `self.chain[-1]` raises `IndexError` (modelled `none`) on an empty
chain. On success the pending pool is cleared and the block appended. -/
def new_block (st : State) (proof : Int) (previous_hash : Option Json) (now : Int) :
    Option (Block × State) :=
  let ph? : Option Json :=
    match previous_hash with
    | some v => if Json.pyTruthy v then some v else (st.chain.getLast?).map (fun b => .str (hashBlock b))
    | none => (st.chain.getLast?).map (fun b => .str (hashBlock b))
  ph?.map (fun ph =>
    let block : Block :=
      { index := (st.chain.length : Int) + 1
        timestamp := now
        transactions := st.current_transactions
        proof := proof
        previous_hash := ph }
    (block, { st with chain := st.chain ++ [block], current_transactions := [] }))

/-- `Blockchain.__init__`: empty chain and pool, then
`new_block(previous_hash=1, proof=100)` (the genesis block), then an
empty node set. The genesis `previous_hash` argument `1` is truthy, so
that `new_block` call always succeeds. -/
def init (now : Int) : State :=
  match new_block { chain := [], current_transactions := [], nodes := [] } 100 (some (.num 1)) now with
  | some (_, st) => st
  | none => { chain := [], current_transactions := [], nodes := [] }

/-- The loop body of `valid_chain`, walking from the second block with
`last_block` the predecessor: mismatch of `previous_hash` against
`hash(last_block)` or failure of `valid_proof` on the consecutive
proofs returns `False` at the first offending block. -/
def valid_walk (last_block : Block) : List Block → Bool
  | [] => true
  | block :: rest =>
    if block.previous_hash ≠ Json.str (hashBlock last_block) then false
    else if valid_proof last_block.proof block.proof = false then false
    else valid_walk block rest

/-- `Blockchain.valid_chain`: starts with `last_block = chain[0]` —
which raises `IndexError` (modelled `none`) on an empty chain before
any other check — then walks the rest of the chain. -/
def valid_chain (chain : List Block) : Option Bool :=
  match chain with
  | [] => none
  | last_block :: rest => some (valid_walk last_block rest)

/-- Result of `requests.get(f'http://{node}/chain')` for one peer:
either a raised exception (unreachable peer), or a response carrying a
status code and the decoded `length` and `chain` members of its JSON
body. The reported `length` is whatever the peer sent; it is not
derived from the reported chain. -/
inductive FetchOutcome where
  | error
  | response (status : Nat) (length : Int) (chain : List Block)
deriving DecidableEq

/-- The peer loop of `resolve_conflicts`: for each node, fetch; a raised
fetch error propagates (`none`); on a 200 response, a chain whose
reported length beats the running maximum and which passes
`valid_chain` (whose own `IndexError` also propagates) becomes the new
candidate together with its reported length. Returns the final
`new_chain` value. -/
def scan (fetch : String → FetchOutcome) :
    List String → Int → Option (List Block) → Option (Option (List Block))
  | [], _, new_chain => some new_chain
  | node :: rest, max_length, new_chain =>
    match fetch node with
    | .error => none
    | .response status length chain =>
      if status = 200 then
        if max_length < length then
          match valid_chain chain with
          | none => none
          | some true => scan fetch rest length (some chain)
          | some false => scan fetch rest max_length new_chain
        else scan fetch rest max_length new_chain
      else scan fetch rest max_length new_chain

/-- `Blockchain.resolve_conflicts`, with the network abstracted as a
`fetch` capability per registered node. `max_length` starts at
`len(self.chain)`; after the loop, `if new_chain:` is Python
truthiness, so `None` and the empty list both leave the chain in place
and return `False`, while a truthy candidate replaces the chain and
returns `True`. `none` models an exception escaping the call. -/
def resolve_conflicts (st : State) (fetch : String → FetchOutcome) : Option (State × Bool) :=
  match scan fetch st.nodes (st.chain.length : Int) none with
  | none => none
  | some new_chain =>
    match new_chain with
    | some c => if c.isEmpty then some (st, false) else some ({ st with chain := c }, true)
    | none => some (st, false)

/-- One hash-link step of a chain: the successor records the digest of
its predecessor and the consecutive proofs satisfy the puzzle. -/
def linkOk (prev next : Block) : Prop :=
  next.previous_hash = Json.str (hashBlock prev) ∧
    valid_proof prev.proof next.proof = true

/-- A fetch outcome that would win against the given local length: a 200
response whose reported length is strictly greater and whose chain
passes `valid_chain`. -/
def FetchOutcome.qualifies (o : FetchOutcome) (threshold : Int) : Prop :=
  ∃ len c, o = FetchOutcome.response 200 len c ∧ threshold < len ∧
    valid_chain c = some true

/-- A fresh node that registered one peer, used in concrete scenarios. -/
def demoState : State :=
  { init 0 with nodes := ["peer"] }

/-- A network in which the peer answers with a non-200 status. -/
def demoFetch404 : String → FetchOutcome :=
  fun _ => .response 404 9 []

/-- A network in which fetching the peer raises. -/
def demoFetchError : String → FetchOutcome :=
  fun _ => .error

end Blockchain

/-! ## Generic facts about the digest rendering -/

theorem length_flatMap_byteHex (l : List Nat) :
    (l.flatMap SHA256.byteHex).length = 2 * l.length := by
  induction l with
  | nil => rfl
  | cons b rest ih =>
    simp only [List.flatMap_cons, List.length_append, ih, SHA256.byteHex, List.length_cons,
      List.length_nil, List.length_cons]
    omega

theorem sha256_length (msg : List Nat) : (SHA256.sha256 msg).length = 32 := by
  simp [SHA256.sha256, SHA256.wordBytes]

theorem sha256hex_length (msg : List Nat) : (SHA256.sha256hex msg).length = 64 := by
  show ((SHA256.sha256 msg).flatMap SHA256.byteHex).length = 64
  rw [length_flatMap_byteHex, sha256_length]

theorem hash_length (fields : List (String × Json)) : (Blockchain.hash fields).length = 64 :=
  sha256hex_length _

theorem hashBlock_length (b : Blockchain.Block) : (Blockchain.hashBlock b).length = 64 :=
  hash_length _

theorem getD_mem_of_default_mem {α : Type} (l : List α) (n : Nat) (d : α) (hd : d ∈ l) :
    l.getD n d ∈ l := by
  rw [List.getD_eq_getElem?_getD]
  cases h : l[n]? with
  | none => simpa using hd
  | some x => simpa using List.getElem?_mem h

theorem hexChar_mem (n : Nat) : SHA256.hexChar n ∈ "0123456789abcdef".data :=
  getD_mem_of_default_mem _ _ _ (by decide)

theorem sha256hex_chars (msg : List Nat) :
    ∀ ch ∈ (SHA256.sha256hex msg).data, ch ∈ "0123456789abcdef".data := by
  intro ch hch
  have : ch ∈ (SHA256.sha256 msg).flatMap SHA256.byteHex := hch
  rw [List.mem_flatMap] at this
  obtain ⟨b, _, hb⟩ := this
  simp only [SHA256.byteHex, List.mem_cons, List.not_mem_nil, or_false] at hb
  rcases hb with h | h <;> exact h ▸ hexChar_mem _

/-! ## C10: `valid_chain` and the empty candidate -/

/-- C10: `valid_chain` reads `chain[0]` before any length check, so on
the empty candidate the `IndexError` branch (modelled `none`) is taken,
and it is taken exactly there: on every non-empty candidate the walk
returns a boolean. -/
theorem valid_chain_none_iff_empty (chain : List Blockchain.Block) :
    Blockchain.valid_chain chain = none ↔ chain = [] := by
  cases chain <;> simp [Blockchain.valid_chain]

/-! ## C3: `valid_chain` checks exactly the consecutive links -/

theorem valid_walk_iff_chain (b : Blockchain.Block) (rest : List Blockchain.Block) :
    Blockchain.valid_walk b rest = true ↔ List.Chain Blockchain.linkOk b rest := by
  induction rest generalizing b with
  | nil => simp [Blockchain.valid_walk]
  | cons x rest ih =>
    rw [List.chain_cons, ← ih x]
    simp only [Blockchain.valid_walk, Blockchain.linkOk]
    by_cases h1 : x.previous_hash = Json.str (Blockchain.hashBlock b)
    · by_cases h2 : Blockchain.valid_proof b.proof x.proof = true
      · simp [h1, h2]
      · have hf : Blockchain.valid_proof b.proof x.proof = false := by simpa using h2
        simp [h1, hf]
    · simp [h1]

/-- C3: on a non-empty candidate, `valid_chain` walks from the second
block onward and answers `True` exactly when every block's
`previous_hash` equals the digest of its predecessor and every
consecutive proof pair passes `valid_proof` (`False` as soon as one
link fails); in particular every one-block chain is accepted. The
embedding is a pure function of the candidate, so neither the
candidate nor the local chain is mutated. -/
theorem valid_chain_checks_links (b : Blockchain.Block) (rest : List Blockchain.Block) :
    (Blockchain.valid_chain (b :: rest) = some true ↔ List.Chain Blockchain.linkOk b rest) ∧
    Blockchain.valid_chain [b] = some true := by
  refine ⟨?_, rfl⟩
  rw [← valid_walk_iff_chain]
  exact Option.some_inj

/-! ## C6: the puzzle predicate -/

/-- C6: `valid_proof previous candidate` holds exactly when the SHA-256
hex digest of the decimal representations of the two integers
concatenated without separator (previous first) has the four
characters `0000` as its prefix. -/
theorem valid_proof_iff_leading_zeros (previous candidate : Int) :
    Blockchain.valid_proof previous candidate = true ↔
      (SHA256.sha256hex (SHA256.strBytes (toString previous ++ toString candidate))).data.take 4 =
        ['0', '0', '0', '0'] := by
  simp only [Blockchain.valid_proof, pyslice, beq_iff_eq, String.ext_iff]

/-! ## C5: the proof-of-work search finds the least solution -/

/-- C5: whenever a solution exists for the previous proof, the search
loop of `proof_of_work` (counting up from 0) returns a valid candidate
such that no smaller non-negative integer is valid, and the result
depends only on the previous proof. -/
theorem proof_of_work_least (last_proof : Int)
    (ex : ∃ p : Nat, Blockchain.valid_proof last_proof (Int.ofNat p) = true) :
    Blockchain.valid_proof last_proof (Int.ofNat (Blockchain.proof_of_work last_proof ex)) = true ∧
    (∀ c : Nat, c < Blockchain.proof_of_work last_proof ex →
      Blockchain.valid_proof last_proof (Int.ofNat c) = false) ∧
    (∀ ex' : ∃ p : Nat, Blockchain.valid_proof last_proof (Int.ofNat p) = true,
      Blockchain.proof_of_work last_proof ex = Blockchain.proof_of_work last_proof ex') := by
  refine ⟨Nat.find_spec ex, fun c hc => ?_, fun ex' => rfl⟩
  have h := Nat.find_min ex hc
  simpa using h

/-- For the genesis sentinel proof 100 a solution exists: 35293. -/
theorem proof_of_work_solvable_100 :
    ∃ p : Nat, Blockchain.valid_proof 100 (Int.ofNat p) = true :=
  ⟨35293, by decide⟩

/-- Witness for C5 at the concrete previous proof 100. -/
theorem proof_of_work_least_witness :
    Blockchain.valid_proof 100
      (Int.ofNat (Blockchain.proof_of_work 100 proof_of_work_solvable_100)) = true ∧
    (∀ c : Nat, c < Blockchain.proof_of_work 100 proof_of_work_solvable_100 →
      Blockchain.valid_proof 100 (Int.ofNat c) = false) ∧
    (∀ ex' : ∃ p : Nat, Blockchain.valid_proof 100 (Int.ofNat p) = true,
      Blockchain.proof_of_work 100 proof_of_work_solvable_100 =
        Blockchain.proof_of_work 100 ex') :=
  proof_of_work_least 100 proof_of_work_solvable_100

/-! ## C7: the fresh ledger -/

/-- C7 counterexample: the genesis block's `previous_hash` is not the
string `"1"` — the constructor passes the Python integer `1`
(`new_block(previous_hash=1, proof=100)`), which is a different value
(and serializes differently under `json.dumps`). -/
theorem init_previous_hash_not_string_one :
    ¬ ((Blockchain.init 0).chain.map Blockchain.Block.previous_hash = [Json.str "1"]) ∧
    (Blockchain.init 0).chain.map Blockchain.Block.previous_hash = [Json.num 1] := by
  constructor
  · intro h
    exact Json.noConfusion (List.cons.inj h).1
  · rfl

/-- C7 (amended): a freshly constructed ledger has exactly one genesis
block with index 1, the creation timestamp, no transactions, the
sentinel proof 100, and the sentinel `previous_hash` equal to the
Python integer `1` (not the string `"1"`); the pending pool (and the
peer set) start empty. -/
theorem init_genesis (now : Int) :
    (Blockchain.init now).chain =
      [{ index := 1, timestamp := now, transactions := [], proof := 100,
         previous_hash := Json.num 1 }] ∧
    (Blockchain.init now).current_transactions = [] ∧
    (Blockchain.init now).nodes = [] :=
  ⟨rfl, rfl, rfl⟩

/-! ## C4: `new_block` -/

/-- C4 counterexample: the minted block's `previous_hash` does not
always equal the given argument. With the falsy argument `""` (Python
`previous_hash or self.hash(self.chain[-1])`), the stored value is the
digest of the last block — a 64-character string — not `""`. -/
theorem new_block_falsy_previous_hash :
    ((Blockchain.new_block (Blockchain.init 0) 7 (some (Json.str "")) 1).map
      (fun p => p.1.previous_hash)) ≠ some (Json.str "") := by
  intro h
  have h1 : Json.str (Blockchain.hashBlock
      { index := 1, timestamp := 0, transactions := [], proof := 100,
        previous_hash := Json.num 1 }) = Json.str "" := Option.some.inj h
  have h2 := congrArg String.length (Json.str.inj h1)
  rw [hashBlock_length] at h2
  exact absurd h2 (by decide)

/-- C4 (amended): for every ledger state and every truthy
`previous_hash` argument (every digest string is truthy), `new_block`
mints a block whose index is `len(chain) + 1`, whose transactions are
exactly the pending pool in insertion order, and whose `proof` and
`previous_hash` equal the given arguments; it empties the pool,
appends the block to the chain and returns it. (For a falsy argument —
`None`, `""`, `0` — the stored `previous_hash` is instead the digest
of the last block.) -/
theorem new_block_spec (st : Blockchain.State) (proof : Int) (ph : Json) (now : Int)
    (hph : Json.pyTruthy ph = true) :
    ∃ b st', Blockchain.new_block st proof (some ph) now = some (b, st') ∧
      b.index = (st.chain.length : Int) + 1 ∧
      b.timestamp = now ∧
      b.transactions = st.current_transactions ∧
      b.proof = proof ∧
      b.previous_hash = ph ∧
      st'.current_transactions = [] ∧
      st'.chain = st.chain ++ [b] := by
  refine ⟨⟨(st.chain.length : Int) + 1, now, st.current_transactions, proof, ph⟩,
    ⟨st.chain ++ [⟨(st.chain.length : Int) + 1, now, st.current_transactions, proof, ph⟩],
      [], st.nodes⟩, ?_, rfl, rfl, rfl, rfl, rfl, rfl, rfl⟩
  simp [Blockchain.new_block, hph]

/-- Witness for C4's amended theorem at a concrete truthy argument. -/
theorem new_block_spec_witness :
    Json.pyTruthy (Json.str "d") = true ∧
    (∃ b st', Blockchain.new_block (Blockchain.init 0) 7 (some (Json.str "d")) 1 = some (b, st') ∧
      b.index = ((Blockchain.init 0).chain.length : Int) + 1 ∧
      b.timestamp = 1 ∧
      b.transactions = (Blockchain.init 0).current_transactions ∧
      b.proof = 7 ∧
      b.previous_hash = Json.str "d" ∧
      st'.current_transactions = [] ∧
      st'.chain = (Blockchain.init 0).chain ++ [b]) :=
  ⟨by decide, new_block_spec (Blockchain.init 0) 7 (Json.str "d") 1 (by decide)⟩

/-! ## C8: `resolve_conflicts` leaves the pool alone and, without a
replacement, the chain alone -/

/-- C8: however resolution ends (when it returns at all rather than
propagating a fetch error), the pending transaction pool (and the peer
set) are unchanged, and a `False` return means the chain is exactly
the one held before the call. -/
theorem resolve_conflicts_frame (st : Blockchain.State)
    (fetch : String → Blockchain.FetchOutcome) (st' : Blockchain.State) (replaced : Bool)
    (h : Blockchain.resolve_conflicts st fetch = some (st', replaced)) :
    st'.current_transactions = st.current_transactions ∧
    st'.nodes = st.nodes ∧
    (replaced = false → st'.chain = st.chain) := by
  unfold Blockchain.resolve_conflicts at h
  cases hsc : Blockchain.scan fetch st.nodes (st.chain.length : Int) none with
  | none => rw [hsc] at h; exact absurd h (by simp)
  | some nc =>
    rw [hsc] at h
    cases nc with
    | none =>
      simp only [Option.some.injEq, Prod.mk.injEq] at h
      obtain ⟨h1, h2⟩ := h
      subst h1
      subst h2
      exact ⟨rfl, rfl, fun _ => rfl⟩
    | some c =>
      by_cases hc : c.isEmpty
      · simp only [hc, if_true, Option.some.injEq, Prod.mk.injEq] at h
        obtain ⟨h1, h2⟩ := h
        subst h1
        subst h2
        exact ⟨rfl, rfl, fun _ => rfl⟩
      · simp only [hc, if_false, Option.some.injEq, Prod.mk.injEq, Bool.false_eq_true] at h
        obtain ⟨h1, h2⟩ := h
        subst h1
        subst h2
        exact ⟨rfl, rfl, fun hfalse => Bool.noConfusion hfalse⟩

/-- Witness for C8 on a concrete run (one peer, non-200 answer). -/
theorem resolve_conflicts_frame_witness :
    Blockchain.demoState.current_transactions = Blockchain.demoState.current_transactions ∧
    Blockchain.demoState.nodes = Blockchain.demoState.nodes ∧
    (false = false → Blockchain.demoState.chain = Blockchain.demoState.chain) :=
  resolve_conflicts_frame Blockchain.demoState Blockchain.demoFetch404
    Blockchain.demoState false rfl

/-! ## C2: fetch failures during resolution -/

/-- C2 counterexample: with a single registered peer whose fetch raises
(`requests.get` on an unreachable peer), `resolve_conflicts` does not
swallow the failure and keep scanning — the exception propagates out
of the call (modelled by `none`): the source has no handler around
`requests.get`. -/
theorem resolve_conflicts_error_aborts :
    Blockchain.resolve_conflicts Blockchain.demoState Blockchain.demoFetchError = none := rfl

/-- C2 (amended): a peer that answers with a non-200 status code is
skipped — the peer loop continues over the remaining peers exactly as
if that peer were absent — but a network-level fetch failure (a raised
exception) is not caught and aborts the whole resolution. -/
theorem resolve_conflicts_fetch_failure (st : Blockchain.State)
    (fetch : String → Blockchain.FetchOutcome) (node : String) (rest : List String)
    (hn : st.nodes = node :: rest) :
    (fetch node = .error → Blockchain.resolve_conflicts st fetch = none) ∧
    (∀ status length chain, fetch node = .response status length chain → status ≠ 200 →
      ∀ max_length best, Blockchain.scan fetch (node :: rest) max_length best =
        Blockchain.scan fetch rest max_length best) := by
  constructor
  · intro he
    unfold Blockchain.resolve_conflicts
    rw [hn]
    simp [Blockchain.scan, he]
  · intro status length chain hr hs max_length best
    simp [Blockchain.scan, hr, hs]

/-- Witness for C2's amended theorem: the error half on a concrete
one-peer network. -/
theorem resolve_conflicts_fetch_failure_witness :
    (Blockchain.demoFetchError "peer" = .error →
      Blockchain.resolve_conflicts Blockchain.demoState Blockchain.demoFetchError = none) ∧
    (∀ status length chain,
      Blockchain.demoFetchError "peer" = .response status length chain → status ≠ 200 →
      ∀ max_length best,
        Blockchain.scan Blockchain.demoFetchError ("peer" :: []) max_length best =
          Blockchain.scan Blockchain.demoFetchError [] max_length best) :=
  resolve_conflicts_fetch_failure Blockchain.demoState Blockchain.demoFetchError "peer" [] rfl

/-! ## C1: resolution keeps the longest strictly-longer valid chain -/

theorem scan_sound (fetch : String → Blockchain.FetchOutcome) :
    ∀ (nodes : List String) (max_length : Int) (best res : Option (List Blockchain.Block)),
    Blockchain.scan fetch nodes max_length best = some res →
    (res = best ∧ ∀ node ∈ nodes, ∀ l c, fetch node = .response 200 l c →
        Blockchain.valid_chain c = some true → l ≤ max_length)
    ∨ (∃ node ∈ nodes, ∃ len c, res = some c ∧
        fetch node = .response 200 len c ∧ max_length < len ∧
        Blockchain.valid_chain c = some true ∧
        ∀ node' ∈ nodes, ∀ l c', fetch node' = .response 200 l c' →
          max_length < l → Blockchain.valid_chain c' = some true → l ≤ len) := by
  intro nodes
  induction nodes with
  | nil =>
    intro m best res h
    left
    refine ⟨(Option.some.inj h).symm, ?_⟩
    intro node hmem
    exact absurd hmem (List.not_mem_nil node)
  | cons node rest ih =>
    intro m best res h
    cases hfo : fetch node with
    | error => simp [Blockchain.scan, hfo] at h
    | response s l c =>
      simp only [Blockchain.scan, hfo] at h
      by_cases hs : s = 200
      · subst hs
        rw [if_pos rfl] at h
        by_cases hl : m < l
        · rw [if_pos hl] at h
          cases hvc : Blockchain.valid_chain c with
          | none =>
            simp only [hvc] at h
            exact Option.noConfusion h
          | some bv =>
            simp only [hvc] at h
            cases bv with
            | true =>
              rcases ih l (some c) res h with ⟨hres, hall⟩ |
                ⟨n', hmem, len', c'', hres, hf', hlt', hv', hall'⟩
              · right
                refine ⟨node, List.mem_cons_self node rest, l, c, hres, hfo, hl, hvc, ?_⟩
                intro node' hmem' l' c' hf2 hlt2 hv2
                rcases List.mem_cons.mp hmem' with heq | hmem2
                · subst heq
                  rw [hfo] at hf2
                  injection hf2 with e1 e2 e3
                  exact le_of_eq e2.symm
                · exact hall node' hmem2 l' c' hf2 hv2
              · right
                refine ⟨n', List.mem_cons_of_mem _ hmem, len', c'', hres, hf',
                  lt_trans hl hlt', hv', ?_⟩
                intro node' hmem' l' c' hf2 hlt2 hv2
                rcases List.mem_cons.mp hmem' with heq | hmem2
                · subst heq
                  rw [hfo] at hf2
                  injection hf2 with e1 e2 e3
                  rw [← e2]
                  exact le_of_lt hlt'
                · by_cases hll : l < l'
                  · exact hall' node' hmem2 l' c' hf2 hll hv2
                  · exact le_trans (not_lt.mp hll) (le_of_lt hlt')
            | false =>
              rcases ih m best res h with ⟨hres, hall⟩ |
                ⟨n', hmem, len', c'', hres, hf', hlt', hv', hall'⟩
              · left
                refine ⟨hres, ?_⟩
                intro node' hmem' l' c' hf2 hv2
                rcases List.mem_cons.mp hmem' with heq | hmem2
                · subst heq
                  rw [hfo] at hf2
                  injection hf2 with e1 e2 e3
                  rw [← e3, hvc] at hv2
                  exact absurd (Option.some.inj hv2) (by simp)
                · exact hall node' hmem2 l' c' hf2 hv2
              · right
                refine ⟨n', List.mem_cons_of_mem _ hmem, len', c'', hres, hf', hlt', hv', ?_⟩
                intro node' hmem' l' c' hf2 hlt2 hv2
                rcases List.mem_cons.mp hmem' with heq | hmem2
                · subst heq
                  rw [hfo] at hf2
                  injection hf2 with e1 e2 e3
                  rw [← e3, hvc] at hv2
                  exact absurd (Option.some.inj hv2) (by simp)
                · exact hall' node' hmem2 l' c' hf2 hlt2 hv2
        · rw [if_neg hl] at h
          rcases ih m best res h with ⟨hres, hall⟩ |
            ⟨n', hmem, len', c'', hres, hf', hlt', hv', hall'⟩
          · left
            refine ⟨hres, ?_⟩
            intro node' hmem' l' c' hf2 hv2
            rcases List.mem_cons.mp hmem' with heq | hmem2
            · subst heq
              rw [hfo] at hf2
              injection hf2 with e1 e2 e3
              rw [← e2]
              exact not_lt.mp hl
            · exact hall node' hmem2 l' c' hf2 hv2
          · right
            refine ⟨n', List.mem_cons_of_mem _ hmem, len', c'', hres, hf', hlt', hv', ?_⟩
            intro node' hmem' l' c' hf2 hlt2 hv2
            rcases List.mem_cons.mp hmem' with heq | hmem2
            · subst heq
              rw [hfo] at hf2
              injection hf2 with e1 e2 e3
              rw [← e2] at hlt2
              exact absurd hlt2 hl
            · exact hall' node' hmem2 l' c' hf2 hlt2 hv2
      · rw [if_neg hs] at h
        rcases ih m best res h with ⟨hres, hall⟩ |
          ⟨n', hmem, len', c'', hres, hf', hlt', hv', hall'⟩
        · left
          refine ⟨hres, ?_⟩
          intro node' hmem' l' c' hf2 hv2
          rcases List.mem_cons.mp hmem' with heq | hmem2
          · subst heq
            rw [hfo] at hf2
            injection hf2 with e1 e2 e3
            exact absurd e1 hs
          · exact hall node' hmem2 l' c' hf2 hv2
        · right
          refine ⟨n', List.mem_cons_of_mem _ hmem, len', c'', hres, hf', hlt', hv', ?_⟩
          intro node' hmem' l' c' hf2 hlt2 hv2
          rcases List.mem_cons.mp hmem' with heq | hmem2
          · subst heq
            rw [hfo] at hf2
            injection hf2 with e1 e2 e3
            exact absurd e1 hs
          · exact hall' node' hmem2 l' c' hf2 hlt2 hv2

/-- C1: whenever `resolve_conflicts` returns (rather than propagating a
fetch error), the local chain is replaced only by a fetched chain whose
reported length strictly exceeds the local chain's length and which
passes `valid_chain`; an equal-length chain never replaces the local
one; every peer is scanned and (by reported length) no qualifying
fetched chain is longer than the one kept; and the call returns `True`
exactly when some peer offered such a qualifying chain, i.e. exactly
when a replacement happened. -/
theorem resolve_conflicts_longest (st : Blockchain.State)
    (fetch : String → Blockchain.FetchOutcome) (st' : Blockchain.State) (replaced : Bool)
    (h : Blockchain.resolve_conflicts st fetch = some (st', replaced)) :
    (replaced = true ↔ ∃ node ∈ st.nodes,
      (fetch node).qualifies (st.chain.length : Int)) ∧
    (replaced = false → st' = st) ∧
    (replaced = true →
      ∃ node ∈ st.nodes, ∃ len, fetch node = .response 200 len st'.chain ∧
        (st.chain.length : Int) < len ∧ Blockchain.valid_chain st'.chain = some true ∧
        ∀ node' ∈ st.nodes, ∀ l c, fetch node' = .response 200 l c →
          (st.chain.length : Int) < l → Blockchain.valid_chain c = some true → l ≤ len) := by
  unfold Blockchain.resolve_conflicts at h
  cases hsc : Blockchain.scan fetch st.nodes (st.chain.length : Int) none with
  | none => rw [hsc] at h; exact absurd h (by simp)
  | some nc =>
    rw [hsc] at h
    rcases scan_sound fetch st.nodes _ _ _ hsc with ⟨hres, hall⟩ |
      ⟨n, hmem, len, c, hres, hf, hlt, hv, hall⟩
    · subst hres
      simp only [Option.some.injEq, Prod.mk.injEq] at h
      obtain ⟨h1, h2⟩ := h
      subst h1
      subst h2
      refine ⟨⟨fun hfalse => Bool.noConfusion hfalse, ?_⟩, fun _ => rfl,
        fun htrue => Bool.noConfusion htrue⟩
      rintro ⟨node, hm, l, cq, hfq, hlq, hvq⟩
      exact absurd hlq (not_lt.mpr (hall node hm l cq hfq hvq))
    · subst hres
      have hcfalse : c.isEmpty = false := by
        cases hemp : c.isEmpty
        · rfl
        · rw [List.isEmpty_iff.mp hemp] at hv
          exact absurd hv (by simp [Blockchain.valid_chain])
      simp only [hcfalse, Bool.false_eq_true, if_false, Option.some.injEq,
        Prod.mk.injEq] at h
      obtain ⟨h1, h2⟩ := h
      subst h2
      subst h1
      exact ⟨⟨fun _ => ⟨n, hmem, len, c, hf, hlt, hv⟩, fun _ => rfl⟩,
        fun hf2 => Bool.noConfusion hf2, fun _ => ⟨n, hmem, len, hf, hlt, hv, hall⟩⟩

/-- Witness for C1 on a concrete run (one peer, non-200 answer, so no
replacement). -/
theorem resolve_conflicts_longest_witness :
    (false = true ↔ ∃ node ∈ Blockchain.demoState.nodes,
      (Blockchain.demoFetch404 node).qualifies (Blockchain.demoState.chain.length : Int)) ∧
    (false = false → Blockchain.demoState = Blockchain.demoState) ∧
    (false = true →
      ∃ node ∈ Blockchain.demoState.nodes, ∃ len,
        Blockchain.demoFetch404 node = .response 200 len Blockchain.demoState.chain ∧
        (Blockchain.demoState.chain.length : Int) < len ∧
        Blockchain.valid_chain Blockchain.demoState.chain = some true ∧
        ∀ node' ∈ Blockchain.demoState.nodes, ∀ l c,
          Blockchain.demoFetch404 node' = .response 200 l c →
          (Blockchain.demoState.chain.length : Int) < l →
          Blockchain.valid_chain c = some true → l ≤ len) :=
  resolve_conflicts_longest Blockchain.demoState Blockchain.demoFetch404
    Blockchain.demoState false rfl

/-! ## C9: the digest is a function of the block's logical content -/

theorem dumpsMembers_eq_map (l : List (String × Json)) :
    Json.dumpsMembers l = l.map (fun kv => (kv.1, Json.dumps kv.2)) := by
  induction l with
  | nil => rfl
  | cons kv rest ih =>
    cases kv
    simp [Json.dumpsMembers, ih]

theorem sortPairs_eq_of_perm (l1 l2 : List (String × String)) (hp : l1.Perm l2)
    (hnd : (l1.map Prod.fst).Nodup) : Json.sortPairs l1 = Json.sortPairs l2 := by
  have htr : ∀ a b c : String × String, decide (a.1 ≤ b.1) = true →
      decide (b.1 ≤ c.1) = true → decide (a.1 ≤ c.1) = true := by
    intro a b c h1 h2
    simp only [decide_eq_true_eq] at h1 h2 ⊢
    exact le_trans h1 h2
  have hto : ∀ a b : String × String,
      (decide (a.1 ≤ b.1) || decide (b.1 ≤ a.1)) = true := by
    intro a b
    simp only [Bool.or_eq_true, decide_eq_true_eq]
    exact le_total a.1 b.1
  have p1 : (Json.sortPairs l1).Perm l1 := List.mergeSort_perm l1 _
  have p2 : (Json.sortPairs l2).Perm l2 := List.mergeSort_perm l2 _
  have s1 := @List.sorted_mergeSort (String × String) (fun x y => decide (x.1 ≤ y.1)) htr hto l1
  have s2 := @List.sorted_mergeSort (String × String) (fun x y => decide (x.1 ≤ y.1)) htr hto l2
  have hnd2 : (l2.map Prod.fst).Nodup := ((hp.map Prod.fst).nodup_iff).mp hnd
  have nd1 : ((Json.sortPairs l1).map Prod.fst).Nodup := ((p1.map Prod.fst).nodup_iff).mpr hnd
  have nd2 : ((Json.sortPairs l2).map Prod.fst).Nodup := ((p2.map Prod.fst).nodup_iff).mpr hnd2
  have st1 : List.Sorted (fun a b : String × String => a.1 < b.1) (Json.sortPairs l1) :=
    (s1.and (List.pairwise_map.mp nd1)).imp
      (fun hab => lt_of_le_of_ne (of_decide_eq_true hab.1) hab.2)
  have st2 : List.Sorted (fun a b : String × String => a.1 < b.1) (Json.sortPairs l2) :=
    (s2.and (List.pairwise_map.mp nd2)).imp
      (fun hab => lt_of_le_of_ne (of_decide_eq_true hab.1) hab.2)
  haveI : IsAntisymm (String × String) (fun a b => a.1 < b.1) :=
    ⟨fun _ _ h1 h2 => absurd h1 (lt_asymm h2)⟩
  exact List.eq_of_perm_of_sorted (p1.trans (hp.trans p2.symm)) st1 st2

/-- C9: `Blockchain.hash` on two structurally identical block dicts —
same members, any in-memory insertion order (with the distinct keys a
Python dict guarantees) — produces the identical digest, a fixed-length
(64-character) lowercase hexadecimal string: `json.dumps(sort_keys=True)`
erases the insertion order before hashing. -/
theorem hash_insertion_order_invariant (l1 l2 : List (String × Json))
    (hperm : l1.Perm l2) (hkeys : (l1.map Prod.fst).Nodup) :
    Blockchain.hash l1 = Blockchain.hash l2 ∧
    (Blockchain.hash l1).length = 64 ∧
    (∀ ch ∈ (Blockchain.hash l1).data, ch ∈ "0123456789abcdef".data) := by
  refine ⟨?_, hash_length l1, sha256hex_chars _⟩
  have hsp : Json.sortPairs (Json.dumpsMembers l1) = Json.sortPairs (Json.dumpsMembers l2) := by
    apply sortPairs_eq_of_perm
    · rw [dumpsMembers_eq_map, dumpsMembers_eq_map]
      exact hperm.map _
    · rw [dumpsMembers_eq_map, List.map_map]
      exact hkeys
  have hdu : Json.dumps (Json.obj l1) = Json.dumps (Json.obj l2) := by
    simp only [Json.dumps]
    rw [hsp]
  simp only [Blockchain.hash, hdu]

/-- Witness for C9 on a concrete two-member dict and its reversal. -/
theorem hash_insertion_order_invariant_witness :
    Blockchain.hash [("b", Json.num 2), ("a", Json.num 1)] =
      Blockchain.hash [("a", Json.num 1), ("b", Json.num 2)] ∧
    (Blockchain.hash [("b", Json.num 2), ("a", Json.num 1)]).length = 64 ∧
    (∀ ch ∈ (Blockchain.hash [("b", Json.num 2), ("a", Json.num 1)]).data,
      ch ∈ "0123456789abcdef".data) :=
  hash_insertion_order_invariant _ _
    (List.Perm.swap ("a", Json.num 1) ("b", Json.num 2) []) (by decide)

end BuildingBlockchain
